import Mathlib

/-!
Verification development for the TTS CLI repository.

The definitions below are shallow embeddings of the Python functions in
`cli.py`, `libs/tools.py` and `libs/api.py`.  Text is modelled as
`List Char`, byte buffers as `List Nat`, file paths as `Nat` identifiers.
-/

namespace TTS

/-- Whitespace characters recognised by Python's `str.strip` on ASCII input
(space, tab, newline, carriage return, vertical tab, form feed). -/
def isSpace (c : Char) : Bool :=
  c = ' ' || c = '\t' || c = '\n' || c = '\r' || c = '\x0b' || c = '\x0c'

/-- Delimiter characters of `SPLIT_REGEX = re.compile(r"(?<=[.!?]|,|\n)")` in
`cli.py`: a split point sits immediately after each of these. -/
def isDelim (c : Char) : Bool :=
  c = '.' || c = '!' || c = '?' || c = ',' || c = '\n'

/-- Embedding of `SPLIT_REGEX.split(text)`: cut the character list right after
every delimiter character, keeping the delimiter with the preceding piece.
A trailing delimiter yields a final empty piece, as Python's `re.split` does. -/
def splitAfter : List Char → List (List Char)
  | [] => [[]]
  | c :: cs =>
    let rest := splitAfter cs
    if isDelim c then [c] :: rest
    else (c :: rest.headD []) :: rest.tail

/-- Embedding of Python `str.strip()` for the whitespace set `isSpace`. -/
def strip (l : List Char) : List Char :=
  ((l.dropWhile isSpace).reverse.dropWhile isSpace).reverse

/-- Embedding of `" ".join(buf)`. -/
def joinSpace : List (List Char) → List Char
  | [] => []
  | [p] => p
  | p :: ps => p ++ ' ' :: joinSpace ps

/-- Recursion core of the hard-slice loop, structurally recursive on a fuel
argument so that it evaluates by kernel reduction; each iteration consumes at
least one character, so `fuel = l.length` never runs out. -/
def sliceGo (m : Nat) : Nat → List Char → List (List Char)
  | 0, _ => []
  | _ + 1, [] => []
  | fuel + 1, c :: cs => (c :: cs.take m) :: sliceGo m fuel (cs.drop m)

/-- Embedding of the hard-slice loop
`for i in range(0, len(p), max_len): chunks.append(p[i : i + max_len])`
for slice width `m + 1` (Python raises `ValueError` on step 0, so the model
covers `max_len ≥ 1` via width `m + 1 = max_len`). -/
def sliceEvery (m : Nat) (l : List Char) : List (List Char) :=
  sliceGo m l.length l

/-- Embedding of the packing loop of `chunk_text` in `cli.py`: state is the
remaining pieces, the emitted chunks, the pending buffer and `cur_len`. -/
def chunkGo (maxLen : Nat) : List (List Char) → List (List Char) → List (List Char) → Nat → List (List Char)
  | [], chunks, buf, _ => if buf = [] then chunks else chunks ++ [joinSpace buf]
  | p :: ps, chunks, buf, curLen =>
    if maxLen < p.length then
      chunkGo maxLen ps
        ((if curLen ≠ 0 then chunks ++ [joinSpace buf] else chunks) ++ sliceEvery (maxLen - 1) p)
        [] 0
    else
      if curLen + ((if buf = [] then 0 else 1) + p.length) ≤ maxLen then
        chunkGo maxLen ps chunks (buf ++ [p]) (curLen + ((if buf = [] then 0 else 1) + p.length))
      else
        chunkGo maxLen ps (if buf = [] then chunks else chunks ++ [joinSpace buf]) [p] p.length

/-- Embedding of `chunk_text(text, max_len)` from `cli.py`: split on
sentence-ish boundaries, strip the pieces, drop the empty ones, then pack
greedily into chunks of at most `max_len` characters. -/
def chunk_text (text : List Char) (maxLen : Nat) : List (List Char) :=
  chunkGo maxLen (((splitAfter text).map strip).filter (fun p => p ≠ [])) [] [] 0

/-- Characters of a text with the whitespace removed: the residue that the
chunking guarantee is stated about. -/
def nsp (l : List Char) : List Char :=
  l.filter (fun c => !isSpace c)

/-! Basic properties of the splitting and joining helpers. -/

theorem splitAfter_ne_nil (l : List Char) : splitAfter l ≠ [] := by
  cases l with
  | nil => simp [splitAfter]
  | cons c cs =>
    simp only [splitAfter]
    split <;> simp

theorem flatten_splitAfter (l : List Char) : (splitAfter l).flatten = l := by
  induction l with
  | nil => simp [splitAfter]
  | cons c cs ih =>
    simp only [splitAfter]
    split
    · simp [ih]
    · obtain ⟨p, ps, hps⟩ := List.exists_cons_of_ne_nil (splitAfter_ne_nil cs)
      rw [hps]
      simp only [List.headD_cons, List.tail_cons, List.flatten_cons]
      rw [hps] at ih
      simp only [List.flatten_cons] at ih
      simp [ih]

theorem nsp_append (a b : List Char) : nsp (a ++ b) = nsp a ++ nsp b := by
  simp [nsp]

theorem nsp_dropWhile (l : List Char) : nsp (l.dropWhile isSpace) = nsp l := by
  induction l with
  | nil => rfl
  | cons c cs ih =>
    rw [List.dropWhile_cons]
    by_cases h : isSpace c
    · rw [if_pos h, ih]
      simp [nsp, h]
    · rw [if_neg h]

theorem nsp_reverse (l : List Char) : nsp l.reverse = (nsp l).reverse := by
  simp [nsp, List.filter_reverse]

theorem nsp_strip (l : List Char) : nsp (strip l) = nsp l := by
  unfold strip
  rw [nsp_reverse, nsp_dropWhile, nsp_reverse, List.reverse_reverse, nsp_dropWhile]

theorem strip_eq_nil_iff (l : List Char) : strip l = [] ↔ ∀ c ∈ l, isSpace c := by
  unfold strip
  constructor
  · intro h c hc
    have h1 : (l.dropWhile isSpace).reverse.dropWhile isSpace = [] := by
      have := congrArg List.reverse h
      simpa using this
    have h2 : ∀ x ∈ l.dropWhile isSpace, isSpace x := by
      intro x hx
      exact List.dropWhile_eq_nil_iff.mp h1 x (List.mem_reverse.mpr hx)
    have h3 : c ∈ l.takeWhile isSpace ++ l.dropWhile isSpace := by
      rw [List.takeWhile_append_dropWhile]; exact hc
    rcases List.mem_append.mp h3 with hm | hm
    · exact List.mem_takeWhile_imp hm
    · exact h2 c hm
  · intro h
    have h1 : l.dropWhile isSpace = [] := List.dropWhile_eq_nil_iff.mpr h
    simp [h1]

theorem joinSpace_append_singleton (buf : List (List Char)) (p : List Char) :
    joinSpace (buf ++ [p]) = if buf = [] then p else joinSpace buf ++ ' ' :: p := by
  induction buf with
  | nil => rfl
  | cons b bs ih =>
    cases bs with
    | nil => rfl
    | cons b2 bs2 =>
      have h1 : joinSpace ((b :: b2 :: bs2) ++ [p]) = b ++ ' ' :: joinSpace ((b2 :: bs2) ++ [p]) := by
        simp only [List.cons_append]
        rfl
      rw [h1, ih]
      simp [joinSpace]

theorem length_joinSpace_append (buf : List (List Char)) (p : List Char) :
    (joinSpace (buf ++ [p])).length
      = (joinSpace buf).length + (if buf = [] then 0 else 1) + p.length := by
  rw [joinSpace_append_singleton]
  by_cases h : buf = []
  · simp [h, joinSpace]
  · simp [h]
    omega

theorem sliceGo_fuel_irrel (m : Nat) :
    ∀ (f1 : Nat) (l : List Char) (f2 : Nat), l.length ≤ f1 → l.length ≤ f2 →
      sliceGo m f1 l = sliceGo m f2 l := by
  intro f1
  induction f1 with
  | zero =>
    intro l f2 h1 _
    have hl : l = [] := List.eq_nil_of_length_eq_zero (Nat.le_zero.mp h1)
    subst hl
    cases f2 <;> rfl
  | succ f ih =>
    intro l f2 h1 h2
    cases l with
    | nil => cases f2 <;> rfl
    | cons c cs =>
      cases f2 with
      | zero => simp at h2
      | succ f2' =>
        simp only [sliceGo]
        congr 1
        apply ih
        · simp only [List.length_drop]
          simp at h1
          omega
        · simp only [List.length_drop]
          simp at h2
          omega

theorem sliceEvery_nil (m : Nat) : sliceEvery m [] = [] := rfl

theorem sliceEvery_cons (m : Nat) (c : Char) (cs : List Char) :
    sliceEvery m (c :: cs) = (c :: cs.take m) :: sliceEvery m (cs.drop m) := by
  unfold sliceEvery
  simp only [List.length_cons, sliceGo]
  congr 1
  apply sliceGo_fuel_irrel
  · simp only [List.length_drop]
    omega
  · exact Nat.le_refl _

theorem flatten_sliceEvery (m : Nat) : ∀ (l : List Char), (sliceEvery m l).flatten = l
  | [] => by simp [sliceEvery_nil]
  | c :: cs => by
    rw [sliceEvery_cons, List.flatten_cons, flatten_sliceEvery m (cs.drop m)]
    simp [List.take_append_drop]
termination_by l => l.length
decreasing_by simp [List.length_drop]; omega

theorem sliceEvery_length_le (m : Nat) :
    ∀ (l : List Char), ∀ x ∈ sliceEvery m l, x.length ≤ m + 1
  | [] => by intro x hx; simp [sliceEvery_nil] at hx
  | c :: cs => by
    intro x hx
    rw [sliceEvery_cons] at hx
    rcases List.mem_cons.mp hx with rfl | hm
    · simp only [List.length_cons, List.length_take]
      omega
    · exact sliceEvery_length_le m (cs.drop m) x hm
termination_by l => l.length
decreasing_by simp [List.length_drop]; omega

theorem sliceEvery_ne_nil_mem (m : Nat) :
    ∀ (l : List Char), ∀ x ∈ sliceEvery m l, x ≠ []
  | [] => by intro x hx; simp [sliceEvery_nil] at hx
  | c :: cs => by
    intro x hx
    rw [sliceEvery_cons] at hx
    rcases List.mem_cons.mp hx with rfl | hm
    · simp
    · exact sliceEvery_ne_nil_mem m (cs.drop m) x hm
termination_by l => l.length
decreasing_by simp [List.length_drop]; omega

theorem sliceEvery_dropLast_length (m : Nat) :
    ∀ (l : List Char), ∀ x ∈ (sliceEvery m l).dropLast, x.length = m + 1
  | [] => by intro x hx; simp [sliceEvery_nil] at hx
  | c :: cs => by
    intro x hx
    rw [sliceEvery_cons] at hx
    cases hrec : sliceEvery m (cs.drop m) with
    | nil => rw [hrec] at hx; simp at hx
    | cons y ys =>
      rw [hrec] at hx
      rw [List.dropLast_cons_of_ne_nil (by simp)] at hx
      rcases List.mem_cons.mp hx with rfl | hm
      · have hne : cs.drop m ≠ [] := by
          intro hnil
          rw [hnil, sliceEvery_nil] at hrec
          exact List.noConfusion hrec
        have hlen : m < cs.length := by
          by_contra hle
          exact hne (List.drop_eq_nil_of_le (Nat.le_of_not_lt hle))
        simp [List.length_take]
        omega
      · have := sliceEvery_dropLast_length m (cs.drop m) x (by rw [hrec]; exact hm)
        exact this
termination_by l => l.length
decreasing_by simp [List.length_drop]; omega

/-! Invariants of the greedy packing loop. -/

theorem chunkGo_length (maxLen : Nat) (hL : 0 < maxLen) :
    ∀ (parts chunks buf : List (List Char)) (curLen : Nat),
      (∀ c ∈ chunks, c.length ≤ maxLen) →
      curLen = (joinSpace buf).length →
      curLen ≤ maxLen →
      ∀ c ∈ chunkGo maxLen parts chunks buf curLen, c.length ≤ maxLen := by
  intro parts
  induction parts with
  | nil =>
    intro chunks buf curLen hchunks hcur hle c hc
    rw [chunkGo] at hc
    by_cases hbuf : buf = []
    · rw [if_pos hbuf] at hc
      exact hchunks c hc
    · rw [if_neg hbuf] at hc
      rcases List.mem_append.mp hc with hm | hm
      · exact hchunks c hm
      · rw [List.mem_singleton] at hm
        subst hm
        rw [← hcur]
        exact hle
  | cons p ps ih =>
    intro chunks buf curLen hchunks hcur hle c hc
    rw [chunkGo] at hc
    by_cases h1 : maxLen < p.length
    · rw [if_pos h1] at hc
      refine ih _ [] 0 ?_ rfl (Nat.zero_le _) c hc
      intro x hx
      rcases List.mem_append.mp hx with hm | hm
      · by_cases h0 : curLen ≠ 0
        · rw [if_pos h0] at hm
          rcases List.mem_append.mp hm with hm2 | hm2
          · exact hchunks x hm2
          · rw [List.mem_singleton] at hm2
            subst hm2
            rw [← hcur]
            exact hle
        · rw [if_neg h0] at hm
          exact hchunks x hm
      · have := sliceEvery_length_le (maxLen - 1) p x hm
        omega
    · rw [if_neg h1] at hc
      by_cases h2 : curLen + ((if buf = [] then 0 else 1) + p.length) ≤ maxLen
      · rw [if_pos h2] at hc
        have h' : curLen + ((if buf = [] then 0 else 1) + p.length)
            = (joinSpace (buf ++ [p])).length := by
          rw [length_joinSpace_append, ← hcur]
          by_cases hbuf : buf = [] <;> simp [hbuf] <;> omega
        exact ih _ (buf ++ [p]) _ hchunks h' h2 c hc
      · rw [if_neg h2] at hc
        refine ih _ [p] p.length ?_ rfl (by omega) c hc
        intro x hx
        by_cases hbuf : buf = []
        · rw [if_pos hbuf] at hx
          exact hchunks x hx
        · rw [if_neg hbuf] at hx
          rcases List.mem_append.mp hx with hm | hm
          · exact hchunks x hm
          · rw [List.mem_singleton] at hm
            subst hm
            rw [← hcur]
            exact hle

theorem chunkGo_content (maxLen : Nat) :
    ∀ (parts chunks buf : List (List Char)) (curLen : Nat),
      curLen = (joinSpace buf).length →
      nsp (chunkGo maxLen parts chunks buf curLen).flatten
        = nsp chunks.flatten ++ nsp (joinSpace buf) ++ nsp parts.flatten := by
  intro parts
  induction parts with
  | nil =>
    intro chunks buf curLen hcur
    rw [chunkGo]
    by_cases hbuf : buf = []
    · subst hbuf
      simp [joinSpace, nsp]
    · rw [if_neg hbuf]
      simp [nsp_append, nsp]
  | cons p ps ih =>
    intro chunks buf curLen hcur
    rw [chunkGo]
    by_cases h1 : maxLen < p.length
    · rw [if_pos h1, ih _ [] 0 rfl]
      by_cases h0 : curLen = 0
      · have hjb : joinSpace buf = [] := by
          rw [h0] at hcur
          exact (List.length_eq_zero.mp hcur.symm)
        rw [if_neg (by simp [h0])]
        simp [nsp_append, flatten_sliceEvery, hjb, joinSpace, nsp]
      · rw [if_pos h0]
        simp [nsp_append, flatten_sliceEvery, joinSpace, nsp]
    · rw [if_neg h1]
      by_cases h2 : curLen + ((if buf = [] then 0 else 1) + p.length) ≤ maxLen
      · rw [if_pos h2]
        have h' : curLen + ((if buf = [] then 0 else 1) + p.length)
            = (joinSpace (buf ++ [p])).length := by
          rw [length_joinSpace_append, ← hcur]
          by_cases hbuf : buf = [] <;> simp [hbuf] <;> omega
        rw [ih _ (buf ++ [p]) _ h', joinSpace_append_singleton]
        by_cases hbuf : buf = []
        · subst hbuf
          simp [joinSpace, nsp]
        · rw [if_neg hbuf]
          simp [nsp, isSpace]
      · rw [if_neg h2, ih _ [p] p.length rfl]
        by_cases hbuf : buf = []
        · subst hbuf
          simp [joinSpace, nsp]
        · rw [if_neg hbuf]
          simp [nsp, joinSpace]

theorem nsp_parts (ps : List (List Char)) :
    nsp (((ps.map strip).filter (fun p => p ≠ [])).flatten) = nsp ps.flatten := by
  induction ps with
  | nil => rfl
  | cons pc pcs ih =>
    simp only [List.map_cons, List.filter_cons]
    by_cases h : strip pc = []
    · have hpc : nsp pc = [] := by
        rw [← nsp_strip, h]
        rfl
      simp only [ne_eq, decide_not] at ih
      simp [h, ih, nsp_append, hpc]
    · simp only [ne_eq, decide_not] at ih
      simp [h, ih, nsp_append, nsp_strip]

/-- C1: for every text `T` and every `max_len L > 0`, every chunk returned by
`chunk_text(T, L)` has length at most `L`, and concatenating the returned
chunks in order, ignoring whitespace characters, reproduces exactly the
sequence of non-whitespace characters of `T` in original order. -/
theorem chunk_text_C1 (text : List Char) (maxLen : Nat) (hL : 0 < maxLen) :
    (∀ c ∈ chunk_text text maxLen, c.length ≤ maxLen) ∧
    nsp (chunk_text text maxLen).flatten = nsp text := by
  constructor
  · unfold chunk_text
    exact chunkGo_length maxLen hL _ [] [] 0
      (fun c hc => absurd hc (List.not_mem_nil c)) rfl (Nat.zero_le _)
  · unfold chunk_text
    rw [chunkGo_content maxLen _ [] [] 0 rfl]
    have h1 := nsp_parts (splitAfter text)
    rw [flatten_splitAfter] at h1
    simpa [joinSpace, nsp] using h1

/-- Witness for C1 at the spec's own example input and `max_len = 100`. -/
theorem chunk_text_C1_witness :
    0 < 100 ∧
    ((∀ c ∈ chunk_text ("Hello. World! Test?".toList) 100, c.length ≤ 100) ∧
      nsp (chunk_text ("Hello. World! Test?".toList) 100).flatten
        = nsp ("Hello. World! Test?".toList)) :=
  ⟨by decide, chunk_text_C1 ("Hello. World! Test?".toList) 100 (by decide)⟩

theorem splitAfter_no_delim (l : List Char) (h : ∀ c ∈ l, isDelim c = false) :
    splitAfter l = [l] := by
  induction l with
  | nil => rfl
  | cons c cs ih =>
    simp only [splitAfter]
    rw [h c (List.mem_cons_self c cs)]
    rw [ih (fun x hx => h x (List.mem_cons_of_mem c hx))]
    simp

/-- C9 counterexample: `T = " a "` has length `3 ≤ 3` and contains no split
delimiter, yet `chunk_text(T, 3)` is `["a"]`, not `[T]` — the pieces are
stripped, so leading/trailing whitespace is not preserved. -/
theorem chunk_text_C9_cex :
    (" a ".toList).length ≤ 3 ∧ (∀ c ∈ " a ".toList, isDelim c = false) ∧
    chunk_text (" a ".toList) 3 ≠ [" a ".toList] := by
  decide

/-- C9 (amended): for every nonempty string `T` with no leading or trailing
whitespace (`T.strip() == T`), `len(T) ≤ L` and no split delimiter,
`chunk_text(T, L)` returns the singleton `[T]`. -/
theorem chunk_text_C9_amended (t : List Char) (L : Nat) (h1 : t ≠ [])
    (h2 : strip t = t) (h3 : t.length ≤ L) (h4 : ∀ c ∈ t, isDelim c = false) :
    chunk_text t L = [t] := by
  unfold chunk_text
  rw [splitAfter_no_delim t h4]
  simp only [List.map_cons, List.map_nil, h2, List.filter_cons, List.filter_nil]
  rw [if_pos (by simp [h1])]
  rw [chunkGo]
  rw [if_neg (by omega)]
  rw [if_pos (by simp; omega)]
  rw [chunkGo]
  simp [joinSpace]

/-- Witness for the amended C9 at `T = "ab"`, `L = 5`. -/
theorem chunk_text_C9_amended_witness :
    ("ab".toList ≠ [] ∧ strip ("ab".toList) = "ab".toList ∧
      ("ab".toList).length ≤ 5 ∧ (∀ c ∈ "ab".toList, isDelim c = false)) ∧
    chunk_text ("ab".toList) 5 = ["ab".toList] :=
  ⟨by decide, chunk_text_C9_amended ("ab".toList) 5 (by decide) (by decide)
    (by decide) (by decide)⟩

set_option maxRecDepth 20000 in
/-- C5 counterexample: a single 250-character piece with `max_len = 100` is
hard-sliced into chunks of lengths `100, 100, 50` — the last sub-chunk does
not have exactly `max_len` characters. -/
theorem chunk_text_C5_cex :
    (chunk_text (List.replicate 250 'a') 100).map List.length = [100, 100, 50] ∧
    ¬ (∀ c ∈ chunk_text (List.replicate 250 'a') 100, c.length = 100) := by
  decide

/-- C5 (amended): for every split piece `p` with `len(p) > max_len ≥ 1`, the
packing loop first flushes any pending buffer (when `cur_len ≠ 0`) as a chunk
and then emits `p` as consecutive sub-chunks whose concatenation is `p`; every
sub-chunk except possibly the last has exactly `max_len` characters, and the
last is nonempty with at most `max_len` characters. -/
theorem chunk_text_C5_amended (maxLen : Nat) (hL : 0 < maxLen) (p : List Char)
    (hp : maxLen < p.length) (ps chunks buf : List (List Char)) (curLen : Nat) :
    chunkGo maxLen (p :: ps) chunks buf curLen
      = chunkGo maxLen ps
          ((if curLen ≠ 0 then chunks ++ [joinSpace buf] else chunks)
            ++ sliceEvery (maxLen - 1) p) [] 0
    ∧ (sliceEvery (maxLen - 1) p).flatten = p
    ∧ (∀ x ∈ (sliceEvery (maxLen - 1) p).dropLast, x.length = maxLen)
    ∧ (∀ x ∈ sliceEvery (maxLen - 1) p, x ≠ [] ∧ x.length ≤ maxLen) := by
  refine ⟨?_, flatten_sliceEvery _ p, ?_, ?_⟩
  · rw [chunkGo, if_pos hp]
  · intro x hx
    have := sliceEvery_dropLast_length (maxLen - 1) p x hx
    omega
  · intro x hx
    refine ⟨sliceEvery_ne_nil_mem _ p x hx, ?_⟩
    have := sliceEvery_length_le (maxLen - 1) p x hx
    omega

/-- Witness for the amended C5 at `max_len = 2`, `p = "abc"`. -/
theorem chunk_text_C5_amended_witness :
    (0 < 2 ∧ 2 < ("abc".toList).length) ∧
    (chunkGo 2 ["abc".toList] [] [] 0
        = chunkGo 2 []
            ((if (0 : Nat) ≠ 0 then [] ++ [joinSpace []] else ([] : List (List Char)))
              ++ sliceEvery (2 - 1) ("abc".toList)) [] 0
      ∧ (sliceEvery (2 - 1) ("abc".toList)).flatten = "abc".toList
      ∧ (∀ x ∈ (sliceEvery (2 - 1) ("abc".toList)).dropLast, x.length = 2)
      ∧ (∀ x ∈ sliceEvery (2 - 1) ("abc".toList), x ≠ [] ∧ x.length ≤ 2)) :=
  ⟨⟨by decide, by decide⟩,
    chunk_text_C5_amended 2 (by decide) ("abc".toList) (by decide) [] [] [] 0⟩

/-! Embedding of `validate_language` from `libs/tools.py`.  The dynamic
`isinstance` check of Python is outside a typed embedding; the model covers
the string inputs. -/

/-- Embedding of `validate_language`: reject unless the code has exactly two
characters, otherwise return it lowercased; nothing else about the content is
inspected. -/
def validate_language (language : List Char) : Except (List Char) (List Char) :=
  if language.length = 2 then Except.ok (language.map Char.toLower)
  else Except.error ("Language must be a 2-character code".toList)

/-- C10: `validate_language(s)` returns `s` lowercased when `s` has exactly 2
characters and raises `ValidationError` for every other length (such as the
3-letter code `eng`); no other constraint on the content is checked. -/
theorem validate_language_C10 (s : List Char) :
    (s.length = 2 → validate_language s = Except.ok (s.map Char.toLower)) ∧
    (s.length ≠ 2 → validate_language s
        = Except.error ("Language must be a 2-character code".toList)) := by
  constructor
  · intro h
    simp [validate_language, h]
  · intro h
    simp [validate_language, h]

/-- Witness for C10 at the inputs `"EN"` (accepted, lowercased) and `"eng"`
(rejected). -/
theorem validate_language_C10_witness :
    (("EN".toList).length = 2 ∧ validate_language ("EN".toList) = Except.ok ("en".toList)) ∧
    (("eng".toList).length ≠ 2 ∧ validate_language ("eng".toList)
        = Except.error ("Language must be a 2-character code".toList)) :=
  ⟨⟨by decide, by
      have h := (validate_language_C10 ("EN".toList)).1 (by decide)
      have h2 : ("EN".toList).map Char.toLower = "en".toList := by decide
      rw [h2] at h
      exact h⟩,
    ⟨by decide, (validate_language_C10 ("eng".toList)).2 (by decide)⟩⟩

/-! Embedding of the output-format selection in `main` (`cli.py` 382-400). -/

def fmtPlay : List Char := "play".toList

def fmtFile : List Char := "file".toList

def fmtStdout : List Char := "stdout".toList

/-- Python truthiness of an `Optional[str]`: `None` and `""` are falsy. -/
def truthyOpt : Option (List Char) → Bool
  | none => false
  | some s => !s.isEmpty

/-- Embedding of the `--output` parsing loop: each comma-separated token must
be one of `play`, `file`, `stdout` (else `ValidationError`), and is appended
once, preserving first-occurrence order. -/
def addFormats : List (List Char) → List (List Char) → Except Unit (List (List Char))
  | acc, [] => Except.ok acc
  | acc, f :: fs =>
    if f = fmtPlay ∨ f = fmtFile ∨ f = fmtStdout then
      addFormats (if f ∈ acc then acc else acc ++ [f]) fs
    else Except.error ()

/-- Embedding of the output-format combination rules of `main`: parse
`--output`, then append `file`, `play`, `stdout` for their flags, drop `file`
when `--stdout` and `--file` are given without `--output`, and default to
`[play]` when nothing was selected. -/
def compute_output_formats (output file : Option (List Char)) (play stdoutFlag : Bool) :
    Except Unit (List (List Char)) :=
  match (if truthyOpt output
      then addFormats [] (((output.getD []).splitOn ',').map strip)
      else Except.ok []) with
  | Except.error e => Except.error e
  | Except.ok fs0 =>
    let fs1 := if file.isSome ∧ fmtFile ∉ fs0 then fs0 ++ [fmtFile] else fs0
    let fs2 := if play ∧ fmtPlay ∉ fs1 then fs1 ++ [fmtPlay] else fs1
    let fs3 := if stdoutFlag ∧ fmtStdout ∉ fs2 then fs2 ++ [fmtStdout] else fs2
    let fs4 := if stdoutFlag ∧ file.isSome ∧ ¬ (truthyOpt output = true)
      then fs3.filter (fun f => f ≠ fmtFile) else fs3
    Except.ok (if fs4 = [] then [fmtPlay] else fs4)

/-- C6: when `--stdout` and `--file` are both given and `--output` is not,
`file` is removed from the active format set; and when no format is selected
by any of `--output`, `--file`, `--play`, `--stdout`, the set defaults to
exactly `[play]`. -/
theorem output_formats_C6 :
    (∀ (fileArg : List Char) (play : Bool) (l : List (List Char)),
        compute_output_formats none (some fileArg) play true = Except.ok l →
        fmtFile ∉ l) ∧
    compute_output_formats none none false false = Except.ok [fmtPlay] := by
  constructor
  · intro fileArg play l h
    have h1 : fmtPlay ≠ fmtFile := by decide
    have h2 : fmtStdout ≠ fmtFile := by decide
    cases play with
    | false =>
      simp [compute_output_formats, truthyOpt, h1, h2] at h
      rw [← h]
      decide
    | true =>
      simp [compute_output_formats, truthyOpt, h1, h2] at h
      rw [← h]
      decide
  · rfl

/-- Witness for C6 with `--file` given as the empty path and `--play` unset. -/
theorem output_formats_C6_witness :
    compute_output_formats none (some []) false true = Except.ok [fmtStdout] ∧
    fmtFile ∉ [fmtStdout] :=
  ⟨rfl, output_formats_C6.1 [] false [fmtStdout] rfl⟩

/-! Embedding of the text-input path of `main`: `read_file`, `get_text`
(`cli.py` 209-226 and 335-342) and the run outcome.  An input file is
modelled by its text content (the path/encoding failures of `read_file` are
filesystem conditions outside the embedding). -/

/-- Embedding of `read_file`: the content is stripped, and an empty result
raises `ValidationError("File is empty: ...")`. -/
def read_file (content : List Char) : Except (List Char) (List Char) :=
  if strip content = [] then Except.error ("File is empty".toList)
  else Except.ok (strip content)

/-- Embedding of `get_text`: prefer the input file; else a truthy `text`
argument; an absent or empty `text` raises `ValidationError`.  Note the empty
string is falsy in Python, so `text = ""` falls through to the error. -/
def get_text (textFile text : Option (List Char)) : Except (List Char) (List Char) :=
  match textFile with
  | some fc => read_file fc
  | none =>
    match text with
    | some t => if t = [] then Except.error ("No text provided".toList) else Except.ok t
    | none => Except.error ("No text provided".toList)

/-- Chunk limit `MAX_LEN = 200` of the chunked mode in `main`. -/
def MAX_LEN : Nat := 200

/-- Outcome model of `main` for the validation-and-chunking path: a
`ValidationError` from `get_text` exits 1 having produced no audio; otherwise
the pipeline runs to completion (per-chunk engine errors are swallowed in
`rec_worker`) and exits 0 with one generated item per chunk.  Result is
`(exit code, number of generated audio items)`. -/
def main_exit (textFile text : Option (List Char)) : Nat × Nat :=
  match get_text textFile text with
  | Except.error _ => (1, 0)
  | Except.ok t => (0, (chunk_text t MAX_LEN).length)

theorem chunk_text_all_space (t : List Char) (h : ∀ c ∈ t, isSpace c) (maxLen : Nat) :
    chunk_text t maxLen = [] := by
  unfold chunk_text
  have hparts : ((splitAfter t).map strip).filter (fun p => p ≠ []) = [] := by
    rw [List.filter_eq_nil_iff]
    intro x hx
    obtain ⟨piece, hpc, rfl⟩ := List.mem_map.mp hx
    simp only [ne_eq, decide_not, Bool.not_eq_true', decide_eq_false_iff_not, not_not]
    refine (strip_eq_nil_iff piece).mpr (fun c hc => h c ?_)
    rw [← flatten_splitAfter t]
    exact List.mem_flatten.mpr ⟨piece, hpc, hc⟩
  rw [hparts]
  rfl

/-- C7 counterexample: the whitespace-only command-line text `" "` is truthy
in Python, passes `get_text`, and the run exits 0 (with zero chunks), not 1
as the claim requires for every empty-or-whitespace input. -/
theorem text_validation_C7_cex :
    (∀ c ∈ " ".toList, isSpace c) ∧ main_exit none (some (" ".toList)) = (0, 0) := by
  decide

/-- C7 (amended): a missing or empty command-line text and an input file that
is empty after stripping are validation errors exiting 1 with no audio; but a
nonempty whitespace-only command-line text is not rejected — the run exits 0,
producing zero chunks and hence still no audio output. -/
theorem text_validation_C7_amended :
    main_exit none (some []) = (1, 0) ∧
    main_exit none none = (1, 0) ∧
    (∀ fc : List Char, strip fc = [] → main_exit (some fc) none = (1, 0)) ∧
    (∀ t : List Char, t ≠ [] → (∀ c ∈ t, isSpace c) → main_exit none (some t) = (0, 0)) := by
  refine ⟨rfl, rfl, ?_, ?_⟩
  · intro fc h
    simp [main_exit, get_text, read_file, h]
  · intro t ht h
    simp [main_exit, get_text, ht, chunk_text_all_space t h MAX_LEN]

/-- Witness for the amended C7 at the whitespace-only inputs `" "`. -/
theorem text_validation_C7_amended_witness :
    (strip (" ".toList) = [] ∧ main_exit (some (" ".toList)) none = (1, 0)) ∧
    ((" ".toList) ≠ [] ∧ (∀ c ∈ " ".toList, isSpace c) ∧
      main_exit none (some (" ".toList)) = (0, 0)) :=
  ⟨⟨by decide, text_validation_C7_amended.2.2.1 (" ".toList) (by decide)⟩,
    ⟨by decide, by decide,
      text_validation_C7_amended.2.2.2 (" ".toList) (by decide) (by decide)⟩⟩

/-! Embedding of the producer/consumer pipeline (`rec_worker`, `play_worker`
in `cli.py`).  With a single producer and one FIFO queue the sequence of
enqueued items is well defined; the engine is a function to `Except` (an
engine exception is the `error` case), temp paths are `Nat` identifiers
handed out by `pathOf` (standing for `tempfile.mkstemp`). -/

/-- Queue items: `(idx, tmp_path, audio_bytes)` tuples or the `None`
sentinel. -/
inductive QItem where
  | item (idx : Nat) (tmpPath : Nat) (audio : List Nat)
  | sentinel
deriving DecidableEq

/-- Embedding of the `try/except` around `text_to_speech_bytes` in
`rec_worker`: an engine exception is logged and replaced by `b""`. -/
def gen_bytes (gen : List Char → Except Unit (List Nat)) (chunk : List Char) : List Nat :=
  match gen chunk with
  | Except.ok b => b
  | Except.error _ => []

/-- Loop body of `rec_worker`: enumerate chunks from index 1, enqueue
`(i, tmp_path, bytes)` per chunk, then the sentinel.  A failed temp-file
write is logged and does not change the enqueued tuple. -/
def rec_worker_go (gen : List Char → Except Unit (List Nat)) (pathOf : Nat → Nat) :
    List (List Char) → Nat → List QItem
  | [], _ => [QItem.sentinel]
  | chunk :: rest, i =>
    QItem.item i (pathOf i) (gen_bytes gen chunk) :: rec_worker_go gen pathOf rest (i + 1)

/-- Embedding of `rec_worker`: the full sequence of queue items it produces
for the given chunks (`enumerate(text_chunks, start=1)`). -/
def rec_worker (gen : List Char → Except Unit (List Nat)) (pathOf : Nat → Nat)
    (text_chunks : List (List Char)) : List QItem :=
  rec_worker_go gen pathOf text_chunks 1

/-- Embedding of `play_worker` restricted to its `collected_paths` effect:
dequeue until the sentinel, appending each item's temp path in order
(playback errors are caught and do not affect collection). -/
def play_worker : List QItem → List Nat
  | [] => []
  | QItem.sentinel :: _ => []
  | QItem.item _ p _ :: rest => p :: play_worker rest

theorem rec_worker_go_eq (gen : List Char → Except Unit (List Nat)) (pathOf : Nat → Nat) :
    ∀ (cs : List (List Char)) (i : Nat),
      rec_worker_go gen pathOf cs i
        = (List.enumFrom i cs).map
            (fun ic => QItem.item ic.1 (pathOf ic.1) (gen_bytes gen ic.2))
          ++ [QItem.sentinel]
  | [], _ => rfl
  | c :: rest, i => by
    simp only [rec_worker_go, List.enumFrom, List.map_cons, List.cons_append]
    rw [rec_worker_go_eq gen pathOf rest (i + 1)]

theorem play_worker_map (gen : List Char → Except Unit (List Nat)) (pathOf : Nat → Nat) :
    ∀ l : List (Nat × List Char),
      play_worker
          ((l.map (fun ic => QItem.item ic.1 (pathOf ic.1) (gen_bytes gen ic.2)))
            ++ [QItem.sentinel])
        = l.map (fun ic => pathOf ic.1)
  | [] => rfl
  | x :: xs => by
    simp only [List.map_cons, List.cons_append, play_worker, List.append_eq]
    rw [play_worker_map gen pathOf xs]

/-- C2: for every list of `N` input chunks the producer enqueues exactly the
items with indices `1..N` in increasing order followed by one sentinel
(`N + 1` queue entries in total), and the consumer collects exactly the `N`
temp paths in production order. -/
theorem pipeline_C2 (gen : List Char → Except Unit (List Nat)) (pathOf : Nat → Nat)
    (chunks : List (List Char)) :
    rec_worker gen pathOf chunks
      = (List.enumFrom 1 chunks).map
          (fun ic => QItem.item ic.1 (pathOf ic.1) (gen_bytes gen ic.2))
        ++ [QItem.sentinel]
    ∧ (rec_worker gen pathOf chunks).length = chunks.length + 1
    ∧ play_worker (rec_worker gen pathOf chunks)
        = (List.enumFrom 1 chunks).map (fun ic => pathOf ic.1) := by
  refine ⟨rec_worker_go_eq gen pathOf chunks 1, ?_, ?_⟩
  · rw [rec_worker, rec_worker_go_eq gen pathOf chunks 1]
    simp [List.enumFrom_length]
  · rw [rec_worker, rec_worker_go_eq gen pathOf chunks 1]
    exact play_worker_map gen pathOf (List.enumFrom 1 chunks)

theorem rec_worker_getD (gen : List Char → Except Unit (List Nat)) (pathOf : Nat → Nat) :
    ∀ (cs : List (List Char)) (k i : Nat), k < cs.length →
      (rec_worker_go gen pathOf cs i).getD k QItem.sentinel
        = QItem.item (i + k) (pathOf (i + k)) (gen_bytes gen (cs.getD k [])) := by
  intro cs
  induction cs with
  | nil =>
    intro k i hk
    simp at hk
  | cons c rest ih =>
    intro k i hk
    cases k with
    | zero => simp [rec_worker_go]
    | succ k' =>
      have h1 : (rec_worker_go gen pathOf (c :: rest) i).getD (k' + 1) QItem.sentinel
          = (rec_worker_go gen pathOf rest (i + 1)).getD k' QItem.sentinel := by
        simp [rec_worker_go, List.getD_cons_succ]
      rw [h1, ih k' (i + 1) (by simpa using hk)]
      have h2 : i + 1 + k' = i + (k' + 1) := by omega
      simp [h2, List.getD_cons_succ]

/-- C3: a chunk whose engine call raises still yields a queue item at its
correct index with an empty byte buffer, and the producer still emits all
`N` items plus the final sentinel — no per-chunk failure terminates the
loop. -/
theorem pipeline_C3 (gen : List Char → Except Unit (List Nat)) (pathOf : Nat → Nat)
    (chunks : List (List Char)) (k : Nat) (hk : k < chunks.length)
    (herr : gen (chunks.getD k []) = Except.error ()) :
    (rec_worker gen pathOf chunks).getD k QItem.sentinel
      = QItem.item (k + 1) (pathOf (k + 1)) []
    ∧ (rec_worker gen pathOf chunks).length = chunks.length + 1
    ∧ (rec_worker gen pathOf chunks).getLast? = some QItem.sentinel := by
  refine ⟨?_, ?_, ?_⟩
  · rw [rec_worker, rec_worker_getD gen pathOf chunks k 1 hk]
    have hb : gen_bytes gen (chunks.getD k []) = [] := by
      unfold gen_bytes
      rw [herr]
    rw [hb]
    have h2 : 1 + k = k + 1 := by omega
    rw [h2]
  · rw [rec_worker, rec_worker_go_eq gen pathOf chunks 1]
    simp [List.enumFrom_length]
  · rw [rec_worker, rec_worker_go_eq gen pathOf chunks 1]
    simp

/-- Witness for C3: a one-chunk input whose engine always raises. -/
theorem pipeline_C3_witness :
    (0 < ([['a']] : List (List Char)).length) ∧
    ((rec_worker (fun _ => Except.error ()) (fun n => n) [['a']]).getD 0 QItem.sentinel
        = QItem.item 1 1 []
      ∧ (rec_worker (fun _ => Except.error ()) (fun n => n) [['a']]).length
          = ([['a']] : List (List Char)).length + 1
      ∧ (rec_worker (fun _ => Except.error ()) (fun n => n) [['a']]).getLast?
          = some QItem.sentinel) :=
  ⟨by decide, pipeline_C3 (fun _ => Except.error ()) (fun n => n) [['a']] 0 (by decide) rfl⟩

/-! Embedding of `concat_wav_files` (`cli.py` 100-130).  A WAV input is its
header parameters plus an abstract frame sequence; the output writer state is
its (once-set) header plus the frames written so far. -/

/-- A WAV input file: channel count, sample width, frame rate and frames. -/
structure Wav where
  nchannels : Nat
  sampwidth : Nat
  framerate : Nat
  frames : List Nat
deriving DecidableEq

/-- The output WAV writer: header parameters (set from the first input) and
the frame data written so far. -/
structure WavWriter where
  header : Option (Nat × Nat × Nat)
  frames : List Nat
deriving DecidableEq

/-- One iteration of the `concat_wav_files` loop: the first input sets the
output header; later inputs with differing parameters only cause a logged
warning, and every input's frames are appended. -/
def concat_step (st : WavWriter) (w : Wav) : WavWriter :=
  match st.header with
  | none => ⟨some (w.nchannels, w.sampwidth, w.framerate), st.frames ++ w.frames⟩
  | some h => ⟨some h, st.frames ++ w.frames⟩

/-- Embedding of `concat_wav_files`: an empty path list returns before the
output is opened (nothing written); otherwise the final writer state after
folding over the inputs in path order. -/
def concat_wav_files (in_paths : List Wav) : Option WavWriter :=
  if in_paths.isEmpty then none
  else some (in_paths.foldl concat_step ⟨none, []⟩)

theorem concat_step_frames :
    ∀ (ws : List Wav) (st : WavWriter),
      (ws.foldl concat_step st).frames = st.frames ++ (ws.map Wav.frames).flatten := by
  intro ws
  induction ws with
  | nil =>
    intro st
    simp
  | cons w rest ih =>
    intro st
    simp only [List.foldl_cons, List.map_cons, List.flatten_cons]
    rw [ih]
    cases hh : st.header <;> simp [concat_step, hh]

theorem concat_step_header_some :
    ∀ (ws : List Wav) (st : WavWriter) (h : Nat × Nat × Nat), st.header = some h →
      (ws.foldl concat_step st).header = some h := by
  intro ws
  induction ws with
  | nil =>
    intro st h hh
    exact hh
  | cons w rest ih =>
    intro st h hh
    simp only [List.foldl_cons]
    exact ih _ h (by simp [concat_step, hh])

/-- C4: `concat_wav_files` on an empty list writes nothing and does not
fail; on a non-empty list whose inputs all share the first input's channel
count, sample width and frame rate, the output header equals the first
input's parameters and the output frames are the concatenation of all input
frames in path order, so the output frame count is the sum of the input
frame counts. -/
theorem concat_wav_files_C4 :
    concat_wav_files [] = none ∧
    (∀ (w : Wav) (ws : List Wav),
      (∀ x ∈ ws, x.nchannels = w.nchannels ∧ x.sampwidth = w.sampwidth
        ∧ x.framerate = w.framerate) →
      ∃ out, concat_wav_files (w :: ws) = some out
        ∧ out.header = some (w.nchannels, w.sampwidth, w.framerate)
        ∧ out.frames = ((w :: ws).map Wav.frames).flatten
        ∧ out.frames.length = ((w :: ws).map (fun x => x.frames.length)).sum) := by
  refine ⟨rfl, ?_⟩
  intro w ws _hparams
  refine ⟨(w :: ws).foldl concat_step ⟨none, []⟩, rfl, ?_, ?_, ?_⟩
  · simp only [List.foldl_cons]
    exact concat_step_header_some ws _ _ rfl
  · rw [concat_step_frames]
    rfl
  · rw [concat_step_frames]
    simp only [List.length_flatten, List.map_map, List.nil_append, List.map_cons,
      List.sum_cons]
    rfl

/-- Witness for C4 with two parameter-matching inputs of 2 and 1 frames. -/
theorem concat_wav_files_C4_witness :
    (∀ x ∈ [Wav.mk 1 2 3 [7]], x.nchannels = (Wav.mk 1 2 3 [5, 6]).nchannels
      ∧ x.sampwidth = (Wav.mk 1 2 3 [5, 6]).sampwidth
      ∧ x.framerate = (Wav.mk 1 2 3 [5, 6]).framerate) ∧
    (∃ out, concat_wav_files [Wav.mk 1 2 3 [5, 6], Wav.mk 1 2 3 [7]] = some out
      ∧ out.header = some ((Wav.mk 1 2 3 [5, 6]).nchannels,
          (Wav.mk 1 2 3 [5, 6]).sampwidth, (Wav.mk 1 2 3 [5, 6]).framerate)
      ∧ out.frames = (([Wav.mk 1 2 3 [5, 6], Wav.mk 1 2 3 [7]]).map Wav.frames).flatten
      ∧ out.frames.length
          = (([Wav.mk 1 2 3 [5, 6], Wav.mk 1 2 3 [7]]).map (fun x => x.frames.length)).sum) :=
  ⟨by decide, concat_wav_files_C4.2 (Wav.mk 1 2 3 [5, 6]) [Wav.mk 1 2 3 [7]] (by decide)⟩

/-! Embedding of the end-of-run temp-file handling of `main` (`cli.py`
487-507 for the rename loops, 519-538 for the stdout phase and 540-546 for
the cleanup loop, with the exception handlers at 550-568).  The filesystem
state tracks which temp files exist and which final files were written.
`os.replace` (494/506) runs with no `try` around it: an `OSError` (for
example a cross-filesystem rename) aborts the loop and is caught only at the
top level, which returns 1 without any further file handling; `renFails`
marks the paths whose rename raises.  An exception raised while streaming to
stdout (for example `wave` failing in `concat_wav_files` on an empty temp
file) is likewise caught at the top level, skipping the cleanup loop;
`stdoutRaises` models it.  The cleanup loop's `os.unlink` sits in a bare
`try/except` that swallows failures; `delFails` marks the paths whose
deletion raises. -/

/-- Filesystem state: existing producer temp files and written final files. -/
structure FS where
  temps : List Nat
  finals : List Nat
deriving DecidableEq

/-- Effect of a successful `os.replace(p, dst)`: the temp file disappears,
the destination is written.  The failure case of `os.replace` is modelled at
its call site in `assemble_rename`, where the exception propagates. -/
def replace_file (fs : FS) (p dst : Nat) : FS :=
  FS.mk (fs.temps.erase p) (fs.finals ++ [dst])

/-- Effect of a successful `os.unlink(p)` (guarded by `os.path.exists`). -/
def unlink_file (fs : FS) (p : Nat) : FS :=
  FS.mk (fs.temps.erase p) fs.finals

/-- Embedding of the rename loop
`for i, p in enumerate(collected_paths, start=1): os.replace(p, dst)`;
`dstOf i` is the destination name built for index `i`.  A failing
`os.replace` raises out of the loop: the state at that point is returned as
the `error` case and the remaining paths are left untouched. -/
def assemble_rename (dstOf : Nat → Nat) (renFails : Nat → Bool) :
    List Nat → Nat → FS → Except FS FS
  | [], _, fs => Except.ok fs
  | p :: ps, i, fs =>
    if renFails p then Except.error fs
    else assemble_rename dstOf renFails ps (i + 1) (replace_file fs p (dstOf i))

/-- Embedding of the cleanup loop over `collected_paths`: unlink each path,
swallowing failures (`delFails` marks the paths whose deletion raises, which
therefore remain). -/
def cleanup_temps (delFails : Nat → Bool) : List Nat → FS → FS
  | [], fs => fs
  | p :: ps, fs => cleanup_temps delFails ps (if delFails p then fs else unlink_file fs p)

/-- End-of-run file handling of `main`, returning `(exit code, filesystem)`.
In file mode the collected paths are renamed (a failing rename exits 1 with
the loop aborted; the cleanup loop at 540-546 does not run in file mode);
otherwise the stdout phase runs first — if it raises, the top-level handler
returns 1 and the cleanup loop is skipped — and then each collected path is
deleted, best effort. -/
def end_of_run (outIsFile : Bool) (dstOf : Nat → Nat) (renFails delFails : Nat → Bool)
    (stdoutRaises : Bool) (collected : List Nat) (fs : FS) : Nat × FS :=
  if outIsFile then
    match assemble_rename dstOf renFails collected 1 fs with
    | Except.ok fs' => (if stdoutRaises then 1 else 0, fs')
    | Except.error fs' => (1, fs')
  else
    if stdoutRaises then (1, fs)
    else (0, cleanup_temps delFails collected fs)

theorem assemble_rename_ok (dstOf : Nat → Nat) (renFails : Nat → Bool) :
    ∀ (l : List Nat) (i : Nat) (fs : FS), fs.temps = l → (∀ p ∈ l, renFails p = false) →
      assemble_rename dstOf renFails l i fs
        = Except.ok (FS.mk [] (fs.finals ++ (List.range' i l.length).map dstOf)) := by
  intro l
  induction l with
  | nil =>
    intro i fs h _
    cases fs
    simp_all [assemble_rename]
  | cons p ps ih =>
    intro i fs h hok
    simp only [assemble_rename]
    rw [if_neg (by simp [hok p (List.mem_cons_self p ps)])]
    rw [ih (i + 1) _ (by simp [replace_file, h, List.erase_cons_head])
      (fun q hq => hok q (List.mem_cons_of_mem p hq))]
    simp [replace_file, List.range'_succ]

theorem assemble_rename_fail (dstOf : Nat → Nat) (renFails : Nat → Bool) :
    ∀ (l : List Nat) (i : Nat) (fs : FS), fs.temps = l → (∃ p ∈ l, renFails p = true) →
      ∃ fs', assemble_rename dstOf renFails l i fs = Except.error fs' ∧ fs'.temps ≠ [] := by
  intro l
  induction l with
  | nil =>
    intro i fs h hex
    simp at hex
  | cons p ps ih =>
    intro i fs h hex
    by_cases hp : renFails p = true
    · refine ⟨fs, ?_, ?_⟩
      · simp [assemble_rename, hp]
      · rw [h]
        simp
    · obtain ⟨q, hq, hqf⟩ := hex
      rcases List.mem_cons.mp hq with rfl | hq'
      · exact absurd hqf hp
      · simp only [assemble_rename]
        rw [if_neg hp]
        exact ih (i + 1) _ (by simp [replace_file, h, List.erase_cons_head]) ⟨q, hq', hqf⟩

theorem cleanup_temps_finals (delFails : Nat → Bool) :
    ∀ (l : List Nat) (fs : FS), (cleanup_temps delFails l fs).finals = fs.finals := by
  intro l
  induction l with
  | nil =>
    intro fs
    rfl
  | cons p ps ih =>
    intro fs
    simp only [cleanup_temps]
    rw [ih]
    by_cases h : delFails p
    · rw [if_pos h]
    · rw [if_neg h]
      rfl

theorem cleanup_temps_temps (delFails : Nat → Bool) :
    ∀ (l : List Nat) (fs : FS), fs.temps.Nodup →
      (cleanup_temps delFails l fs).temps
        = fs.temps.filter (fun q => !(decide (q ∈ l) && !delFails q)) := by
  intro l
  induction l with
  | nil =>
    intro fs _
    simp [cleanup_temps]
  | cons p ps ih =>
    intro fs hnd
    simp only [cleanup_temps]
    by_cases hdel : delFails p
    · rw [if_pos hdel, ih fs hnd]
      apply List.filter_congr
      intro q _
      by_cases hqp : q = p
      · subst hqp
        simp [hdel, List.mem_cons]
      · simp [List.mem_cons, hqp]
    · rw [if_neg hdel]
      have hnd' : (unlink_file fs p).temps.Nodup := hnd.erase p
      rw [ih _ hnd']
      have he : (unlink_file fs p).temps = fs.temps.filter (fun x => x != p) :=
        List.Nodup.erase_eq_filter hnd p
      rw [he, List.filter_filter]
      apply List.filter_congr
      intro q _
      by_cases hqp : q = p
      · subst hqp
        simp [hdel, List.mem_cons]
      · by_cases hdq : delFails q <;> simp [List.mem_cons, hqp, hdq]

/-- C8 counterexample: three concrete exit paths of the program leave a
collected temporary file behind.  (a) In non-file mode a swallowed deletion
failure (`cli.py` 541-546) leaves the file, with exit code 0; (b) an
exception in the stdout phase (e.g. `wave` raising on an empty temp file in
`concat_wav_files`) is caught at 550-568 and skips the cleanup loop
entirely; (c) in file mode an `OSError` from the untried `os.replace` at
494/506 aborts the rename loop, leaving the remaining temp file. -/
theorem cleanup_C8_cex :
    (end_of_run false (fun n => n + 100) (fun _ => false) (fun _ => true) false [4]
        (FS.mk [4] []) = (0, FS.mk [4] [])) ∧
    (end_of_run false (fun n => n + 100) (fun _ => false) (fun _ => false) true [4]
        (FS.mk [4] []) = (1, FS.mk [4] [])) ∧
    (end_of_run true (fun n => n + 100) (fun p => decide (p = 7)) (fun _ => false) false [4, 7]
        (FS.mk [4, 7] []) = (1, FS.mk [7] [101])) ∧
    ([4] : List Nat) ≠ [] ∧ ([7] : List Nat) ≠ [] := by
  decide

/-- C8 (amended): starting from the state in which exactly the collected
temp files (pairwise distinct, as `mkstemp` guarantees) exist: in file mode
with every rename succeeding, all collected temp files are renamed into
their indexed destinations and none remains; in non-file mode with the
stdout phase completing, the run exits 0 and the temp files left behind are
exactly those whose (swallowed) deletion failed — none when no deletion
fails; an exception in the stdout phase skips the cleanup loop, exiting 1
with every collected temp file left; and a failing rename aborts the rename
loop, exiting 1 with at least one collected temp file left. -/
theorem cleanup_C8_amended (collected : List Nat) (dstOf : Nat → Nat) (fs : FS)
    (hfs : fs.temps = collected) (hnd : collected.Nodup) :
    (∀ renFails delFails : Nat → Bool, (∀ p ∈ collected, renFails p = false) →
      end_of_run true dstOf renFails delFails false collected fs
        = (0, FS.mk [] (fs.finals ++ (List.range' 1 collected.length).map dstOf))) ∧
    (∀ renFails delFails : Nat → Bool,
      end_of_run false dstOf renFails delFails false collected fs
        = (0, FS.mk (collected.filter delFails) fs.finals)) ∧
    (∀ renFails delFails : Nat → Bool,
      end_of_run false dstOf renFails delFails true collected fs = (1, fs)) ∧
    (∀ renFails delFails : Nat → Bool, (∃ p ∈ collected, renFails p = true) →
      (end_of_run true dstOf renFails delFails false collected fs).1 = 1
      ∧ (end_of_run true dstOf renFails delFails false collected fs).2.temps ≠ []) := by
  refine ⟨?_, ?_, ?_, ?_⟩
  · intro renFails delFails hok
    simp only [end_of_run, if_true]
    rw [assemble_rename_ok dstOf renFails collected 1 fs hfs hok]
    rfl
  · intro renFails delFails
    have htmp : (cleanup_temps delFails collected fs).temps = collected.filter delFails := by
      have h2 := cleanup_temps_temps delFails collected fs (by rw [hfs]; exact hnd)
      rw [hfs] at h2
      rw [h2]
      apply List.filter_congr
      intro q hq
      simp [hq]
    have hfin := cleanup_temps_finals delFails collected fs
    have hstate : cleanup_temps delFails collected fs
        = FS.mk (collected.filter delFails) fs.finals := by
      calc cleanup_temps delFails collected fs
          = FS.mk (cleanup_temps delFails collected fs).temps
              (cleanup_temps delFails collected fs).finals := rfl
        _ = FS.mk (collected.filter delFails) fs.finals := by rw [htmp, hfin]
    simp only [end_of_run, Bool.false_eq_true, if_false, hstate]
  · intro renFails delFails
    rfl
  · intro renFails delFails hex
    obtain ⟨fs', hfs', hne⟩ := assemble_rename_fail dstOf renFails collected 1 fs hfs hex
    simp only [end_of_run, if_true]
    rw [hfs']
    exact ⟨rfl, hne⟩

/-- Witness for the amended C8 at two collected temp files `4` and `7`. -/
theorem cleanup_C8_amended_witness :
    ((FS.mk [4, 7] []).temps = [4, 7] ∧ ([4, 7] : List Nat).Nodup) ∧
    ((∀ renFails delFails : Nat → Bool, (∀ p ∈ ([4, 7] : List Nat), renFails p = false) →
      end_of_run true (fun n => n + 100) renFails delFails false [4, 7] (FS.mk [4, 7] [])
        = (0, FS.mk [] ((FS.mk [4, 7] []).finals
            ++ (List.range' 1 ([4, 7] : List Nat).length).map (fun n => n + 100)))) ∧
    (∀ renFails delFails : Nat → Bool,
      end_of_run false (fun n => n + 100) renFails delFails false [4, 7] (FS.mk [4, 7] [])
        = (0, FS.mk (([4, 7] : List Nat).filter delFails) (FS.mk [4, 7] []).finals)) ∧
    (∀ renFails delFails : Nat → Bool,
      end_of_run false (fun n => n + 100) renFails delFails true [4, 7] (FS.mk [4, 7] [])
        = (1, FS.mk [4, 7] [])) ∧
    (∀ renFails delFails : Nat → Bool, (∃ p ∈ ([4, 7] : List Nat), renFails p = true) →
      (end_of_run true (fun n => n + 100) renFails delFails false [4, 7]
          (FS.mk [4, 7] [])).1 = 1
      ∧ (end_of_run true (fun n => n + 100) renFails delFails false [4, 7]
          (FS.mk [4, 7] [])).2.temps ≠ [])) :=
  ⟨⟨rfl, by decide⟩,
    cleanup_C8_amended [4, 7] (fun n => n + 100) (FS.mk [4, 7] []) rfl (by decide)⟩

end TTS
